import Mathlib

/-!
Verification development for the chunked-upload file-share server.

The embedding models the session-based upload endpoints of
`src/public/script.js` (`/upload/init`, `/upload/chunk`, `/upload/status`,
`/upload/complete`, `/download`) as pure state-transition functions over an
explicit server state.  Durable state (manifest JSON files, chunk blobs,
assembled files under the category tree) is modelled as association lists
keyed the same way the code keys its files on disk.

Modelling conventions, justified from the source:
- `uploadId` / `chunkIndex` / `chunk` request fields are multipart or JSON
  body fields.  An absent field is `none`; an empty string field is `some ""`.
  JavaScript truthiness `!x` rejects exactly absent and empty-string values,
  so the guards below test `= none` or `= some ""`.  Integer-valued fields
  are carried as `Int` (the code's `parseInt` of the canonical decimal
  string the client sends).
- Byte payloads are `List Char`.
- Filesystem paths are lists of path segments (`List (List Char)`);
  `path.join` is modelled as segment concatenation followed by the Node
  normalization step that resolves `..` and drops `.` and empty segments.
-/

namespace FileShare

deriving instance DecidableEq for Except

/-- Association-list lookup: first binding wins, mirroring a keyed file store. -/
def aget [DecidableEq α] : List (α × β) → α → Option β
  | [], _ => none
  | (k, v) :: rest, k' => if k' = k then some v else aget rest k'

/-- Association-list delete, mirroring `fs.unlinkSync` of a keyed file. -/
def adel [DecidableEq α] : List (α × β) → α → List (α × β)
  | [], _ => []
  | (a, b) :: rest, k => if a = k then adel rest k else (a, b) :: adel rest k

/-- Association-list overwrite-or-create, mirroring `fs.writeFileSync` /
`fs.renameSync` onto a keyed destination. -/
def aset [DecidableEq α] (l : List (α × β)) (k : α) (v : β) : List (α × β) :=
  (k, v) :: adel l k

/-! ## Path model

Node's `path.join` concatenates its arguments with `/` and then normalizes
the result: `..` segments pop the previous segment (with no effect at the
root of an absolute path), `.` and empty segments vanish. -/

/-- One path segment, as a character list. -/
abbrev Seg := List Char

/-- A filesystem path, as a list of segments under an absolute root. -/
abbrev FsPath := List Seg

/-- Byte payloads, as character lists. -/
abbrev Bytes := List Char

/-- Character data of a string literal. -/
def s2c (s : String) : List Char := s.data

/-- Split a character list into path segments at each `/`, keeping empty
pieces (normalization drops them), as Node's joiner does. -/
def splitSegs : List Char → List Seg
  | [] => [[]]
  | c :: cs =>
    if c = '/' then [] :: splitSegs cs
    else
      match splitSegs cs with
      | [] => [[c]]
      | s :: rest => (c :: s) :: rest

/-- One step of Node path normalization over an already-normal prefix stack. -/
def normStep (stack : FsPath) (seg : Seg) : FsPath :=
  if seg = [] ∨ seg = ['.'] then stack
  else if seg = ['.', '.'] then stack.dropLast
  else stack ++ [seg]

/-- Node path normalization of a segment list for an absolute path:
`..` pops, `.` and empty segments vanish, popping above root is a no-op. -/
def normalize (segs : List Seg) : FsPath :=
  segs.foldl normStep []

/-- Model of `path.join(base, part₁, …)` where `base` is an absolute,
already-normal path and each further part is a raw name string that may
itself contain separators. -/
def joinUnder (base : FsPath) (parts : List (List Char)) : FsPath :=
  normalize (base ++ (parts.map splitSegs).flatten)

/-- A path segment that normalization simply keeps. -/
def plainSeg (s : Seg) : Prop := s ≠ [] ∧ s ≠ ['.'] ∧ s ≠ ['.', '.']

instance (s : Seg) : Decidable (plainSeg s) := by unfold plainSeg; infer_instance

/-- Whether path `p` lies inside directory `d` (i.e. `d` is an initial
run of `p`'s segments). -/
def inDir : FsPath → FsPath → Bool
  | [], _ => true
  | _ :: _, [] => false
  | a :: as, b :: bs => a = b && inDir as bs

/-! ## Category classifier (`categoryForExt` in the source) -/

def imageExts : List (List Char) :=
  [s2c ".jpg", s2c ".jpeg", s2c ".png", s2c ".gif", s2c ".bmp", s2c ".webp"]

def videoExts : List (List Char) :=
  [s2c ".mp4", s2c ".avi", s2c ".mov", s2c ".mkv", s2c ".webm"]

def docExts : List (List Char) :=
  [s2c ".pdf", s2c ".doc", s2c ".docx", s2c ".xls", s2c ".xlsx",
   s2c ".txt", s2c ".ppt", s2c ".pptx"]

/-- `categoryForExt` from the source: lowercase the extension and look it up
in the three static tables, falling through to `others`. -/
def categoryForExt (ext : List Char) : String :=
  let e := ext.map Char.toLower
  if e ∈ imageExts then "images"
  else if e ∈ videoExts then "videos"
  else if e ∈ docExts then "docs"
  else "others"

/-- Model of Node's `path.extname`: the extension of the last path segment,
from its last `.` (inclusive), empty when there is no dot or the only dot
is the leading character. -/
def extnameChars (l : List Char) : List Char :=
  let base := (splitSegs l).getLastD []
  let r := base.reverse
  let pre := r.takeWhile (fun c => c ≠ '.')
  if pre.length + 1 < base.length then '.' :: pre.reverse
  else []

/-! ## Data model -/

/-- The per-session manifest JSON persisted at `TMP_DIR/<uploadId>.json`. -/
structure Manifest where
  fileName : String
  totalChunks : Int
  uploadedChunks : List Int
deriving DecidableEq, Repr

/-- Durable server state: manifests keyed by uploadId, chunk blobs keyed by
`(uploadId, index)` (the file `TMP_DIR/<uploadId>.part<index>`), and
assembled files keyed by their final path. -/
structure ServerState where
  manifests : List (String × Manifest)
  chunks : List ((String × Int) × Bytes)
  files : List (FsPath × Bytes)
deriving DecidableEq, Repr

/-- Server state with nothing uploaded. -/
def emptyState : ServerState := ⟨[], [], []⟩

/-! ## Operations, translated from `src/public/script.js` -/

/-- POST `/upload/init`: reject falsy `fileName`/`totalChunks`, else persist
a fresh manifest with no uploaded chunks and return the generated id
(`Date.now() + '-' + random`, passed in as `freshId`). -/
def initUpload (st : ServerState) (fileName : String) (totalChunks : Int)
    (freshId : String) : Except String String × ServerState :=
  if fileName = "" ∨ totalChunks = 0 then
    (.error "fileName and totalChunks required", st)
  else
    (.ok freshId,
     { st with manifests := aset st.manifests freshId ⟨fileName, totalChunks, []⟩ })

/-- Manifest update step of the chunk handler: push the index unless
already present (`includes` guard before `push`). -/
def pushIdx (m : Manifest) (i : Int) : Manifest :=
  if i ∈ m.uploadedChunks then m
  else { m with uploadedChunks := m.uploadedChunks ++ [i] }

/-- POST `/upload/chunk`: require `uploadId` and `chunkIndex` truthy, a
readable manifest, and a chunk file; then rename the chunk blob onto
`<uploadId>.part<index>` (overwriting) and rewrite the manifest with the
index pushed if new.  No index-range or payload-size validation exists. -/
def uploadChunk (st : ServerState) (uploadId : Option String)
    (chunkIndex : Option Int) (chunkFile : Option Bytes) :
    Except String (List Int) × ServerState :=
  match uploadId, chunkIndex with
  | some uid, some ci =>
    if uid = "" then (.error "uploadId and chunkIndex required", st)
    else
      match aget st.manifests uid with
      | none => (.error "Invalid or missing manifest file", st)
      | some m =>
        match chunkFile with
        | none => (.error "Chunk file missing", st)
        | some bs =>
          let m' := pushIdx m ci
          (.ok m'.uploadedChunks,
           { st with
              chunks := aset st.chunks (uid, ci) bs,
              manifests := aset st.manifests uid m' })
  | _, _ => (.error "uploadId and chunkIndex required", st)

/-- GET `/upload/status`: return the manifest's uploaded-chunk list. -/
def getStatus (st : ServerState) (uploadId : Option String) :
    Except String (List Int) :=
  match uploadId with
  | none => .error "uploadId required"
  | some uid =>
    if uid = "" then .error "uploadId required"
    else
      match aget st.manifests uid with
      | none => .error "Upload not found"
      | some m => .ok m.uploadedChunks

/-- The ascending chunk indices `1, …, totalChunks` the completion loop
visits (`for (let i = 1; i <= totalChunks; i++)`). -/
def chunkIdxs (t : Int) : List Int :=
  (List.range' 1 t.toNat).map Int.ofNat

/-- The pending background assembly started by `/upload/complete`: the
async IIFE that will append chunks 1..totalChunks into the write stream. -/
structure AssemblyJob where
  uploadId : String
  totalChunks : Int
  finalDest : FsPath
deriving DecidableEq, Repr

/-- POST `/upload/complete`: validate (manifest present, count match, every
chunk blob physically present), then open the destination write stream
(creating an empty file at the final category path), start the background
assembly, unlink the manifest, and respond.  The manifest unlink happens
synchronously, before the deferred assembly job has appended anything. -/
def completeUpload (base : FsPath) (st : ServerState) (uploadId : Option String)
    (ts : String) : Except String String × ServerState × Option AssemblyJob :=
  match uploadId with
  | none => (.error "uploadId required", st, none)
  | some uid =>
    if uid = "" then (.error "uploadId required", st, none)
    else
      match aget st.manifests uid with
      | none => (.error "Invalid uploadId or manifest missing", st, none)
      | some m =>
        if (m.uploadedChunks.length : Int) ≠ m.totalChunks then
          (.error "Not all chunks uploaded yet", st, none)
        else
          match (chunkIdxs m.totalChunks).find?
              (fun i => (aget st.chunks (uid, i)).isNone) with
          | some i => (.error ("Missing chunk file: part" ++ toString i), st, none)
          | none =>
            let finalName := ts ++ "-" ++ m.fileName
            let ext := extnameChars (s2c m.fileName)
            let cat := categoryForExt ext
            let finalDest := joinUnder base [s2c "uploads", s2c cat, s2c finalName]
            (.ok ("/uploads/" ++ cat ++ "/" ++ finalName),
             { st with
                files := aset st.files finalDest [],
                manifests := adel st.manifests uid },
             some { uploadId := uid, totalChunks := m.totalChunks,
                    finalDest := finalDest })

/-- One iteration of the background assembly loop: append chunk `i`'s bytes
to the destination file, then unlink the chunk blob. -/
def assembleStep (uid : String) (dest : FsPath) (st : ServerState) (i : Int) :
    ServerState :=
  let bytes := (aget st.chunks (uid, i)).getD []
  let cur := (aget st.files dest).getD []
  { st with
     files := aset st.files dest (cur ++ bytes),
     chunks := adel st.chunks (uid, i) }

/-- The deferred async assembly of `/upload/complete`, run to completion:
fold the per-chunk append-then-unlink step over indices 1..totalChunks in
ascending order. -/
def runAssembly (st : ServerState) (j : AssemblyJob) : ServerState :=
  (chunkIdxs j.totalChunks).foldl (assembleStep j.uploadId j.finalDest) st

/-- GET `/download`: require a truthy `path` query parameter, join it onto
`__dirname` with no containment check, 404 when the resolved file is
absent, otherwise serve it. -/
inductive DownloadResult where
  | badRequest
  | notFound
  | serve (p : FsPath)
deriving DecidableEq, Repr

/-- GET `/download` handler over the set of files present on disk. -/
def download (base : FsPath) (files : List FsPath) (p : Option String) :
    DownloadResult :=
  match p with
  | none => .badRequest
  | some q =>
    if q = "" then .badRequest
    else
      let resolved := joinUnder base [s2c q]
      if resolved ∈ files then .serve resolved else .notFound

/-- A sequence of chunk registrations against one session, applied in
arrival order (each handler runs atomically: the whole chunk handler is
synchronous `fs` calls on Node's single-threaded event loop). -/
def applyRegs (st : ServerState) (uid : String) (regs : List (Int × Bytes)) :
    ServerState :=
  regs.foldl (fun s r => (uploadChunk s (some uid) (some r.1) (some r.2)).2) st

/-- Any one request the server can process, for stating invariants over
every operation. -/
inductive Op where
  | init (fileName : String) (totalChunks : Int) (freshId : String)
  | chunk (uploadId : Option String) (chunkIndex : Option Int) (chunkFile : Option Bytes)
  | status (uploadId : Option String)
  | complete (uploadId : Option String) (ts : String)
  | assemble (j : AssemblyJob)

/-- State transition of one operation. -/
def applyOp (base : FsPath) (st : ServerState) : Op → ServerState
  | .init f t fid => (initUpload st f t fid).2
  | .chunk u c f => (uploadChunk st u c f).2
  | .status _ => st
  | .complete u ts => (completeUpload base st u ts).2.1
  | .assemble j => runAssembly st j

/-- Freshness of generated ids: `/upload/init` writes its manifest under a
newly generated `Date.now()`-plus-random id, assumed to not collide with a
live session. -/
def opFresh (st : ServerState) : Op → Prop
  | .init _ _ fid => aget st.manifests fid = none
  | _ => True

/-! ## Association-list lemmas -/

@[simp] theorem aget_nil [DecidableEq α] (k : α) :
    aget ([] : List (α × β)) k = none := rfl

@[simp] theorem aget_cons [DecidableEq α] (k k' : α) (v : β) (l : List (α × β)) :
    aget ((k, v) :: l) k' = if k' = k then some v else aget l k' := rfl

@[simp] theorem aget_adel_self [DecidableEq α] (l : List (α × β)) (k : α) :
    aget (adel l k) k = none := by
  induction l with
  | nil => rfl
  | cons p rest ih =>
    rcases p with ⟨a, b⟩
    by_cases h : a = k
    · simpa [adel, h] using ih
    · simpa [adel, h, Ne.symm h] using ih

theorem aget_adel_ne [DecidableEq α] (l : List (α × β)) (k k' : α) (h : k' ≠ k) :
    aget (adel l k) k' = aget l k' := by
  induction l with
  | nil => rfl
  | cons p rest ih =>
    rcases p with ⟨a, b⟩
    by_cases ha : a = k
    · simpa [adel, ha, h] using ih
    · by_cases hk : k' = a
      · simp [adel, ha, hk]
      · simpa [adel, ha, hk] using ih

@[simp] theorem aget_aset_self [DecidableEq α] (l : List (α × β)) (k : α) (v : β) :
    aget (aset l k v) k = some v := by
  simp [aset]

theorem aget_aset_ne [DecidableEq α] (l : List (α × β)) (k k' : α) (v : β) (h : k' ≠ k) :
    aget (aset l k v) k' = aget l k' := by
  simp [aset, h, aget_adel_ne _ _ _ h]

/-! ## Lemmas about the manifest update step -/

theorem pushIdx_fileName (m : Manifest) (i : Int) :
    (pushIdx m i).fileName = m.fileName := by
  unfold pushIdx; split <;> rfl

theorem pushIdx_totalChunks (m : Manifest) (i : Int) :
    (pushIdx m i).totalChunks = m.totalChunks := by
  unfold pushIdx; split <;> rfl

theorem pushIdx_mem_self (m : Manifest) (i : Int) :
    i ∈ (pushIdx m i).uploadedChunks := by
  unfold pushIdx; split
  · assumption
  · simp

theorem pushIdx_of_mem {m : Manifest} {i : Int} (h : i ∈ m.uploadedChunks) :
    pushIdx m i = m := by
  unfold pushIdx; simp [h]

theorem pushIdx_sub (m : Manifest) (i : Int) :
    m.uploadedChunks ⊆ (pushIdx m i).uploadedChunks := by
  unfold pushIdx; split
  · exact fun x hx => hx
  · exact fun x hx => List.mem_append_left _ hx

theorem pushIdx_nodup {m : Manifest} (i : Int) (h : m.uploadedChunks.Nodup) :
    (pushIdx m i).uploadedChunks.Nodup := by
  unfold pushIdx; split
  · exact h
  · next hni => simpa [List.nodup_append, h] using hni

theorem pushIdx_of_not_mem {m : Manifest} {i : Int} (h : i ∉ m.uploadedChunks) :
    (pushIdx m i).uploadedChunks = m.uploadedChunks ++ [i] := by
  unfold pushIdx; simp [h]

/-! ## Equation lemmas for the chunk handler -/

theorem uploadChunk_ok {st : ServerState} {uid : String} {m : Manifest}
    (i : Int) (bs : Bytes) (hid : uid ≠ "") (hm : aget st.manifests uid = some m) :
    uploadChunk st (some uid) (some i) (some bs) =
      (.ok (pushIdx m i).uploadedChunks,
       { st with
          chunks := aset st.chunks (uid, i) bs,
          manifests := aset st.manifests uid (pushIdx m i) }) := by
  simp [uploadChunk, hid, hm]

/-! ## Claim C7: session creation validation -/

/-- C7 (counterexample): `InitUpload("a.txt", -5)` succeeds and persists a
manifest with `totalChunks = -5`: the handler's truthiness guard accepts any
nonzero `totalChunks`, so the claim that every `totalChunks` that is not a
positive integer fails with `InvalidRequest` is false. -/
theorem c7_counterexample_negative_totalChunks :
    (initUpload emptyState "a.txt" (-5) "s1").1 = .ok "s1" ∧
    aget (initUpload emptyState "a.txt" (-5) "s1").2.manifests "s1" =
      some ⟨"a.txt", -5, []⟩ ∧
    ¬ (0 < (-5 : Int)) := by decide

/-- C7 (amended): `/upload/init` fails with the `InvalidRequest` response
exactly when `fileName` is empty/missing or `totalChunks` is zero/missing
(JavaScript truthiness); every other request — including non-positive
`totalChunks` — is accepted, persists a manifest with `uploadedChunks = []`
under the freshly generated id, and returns that id. -/
theorem c7_initUpload_validation (st : ServerState) (f : String) (t : Int)
    (fid : String) :
    (f = "" ∨ t = 0 →
      initUpload st f t fid = (.error "fileName and totalChunks required", st)) ∧
    (f ≠ "" → t ≠ 0 →
      initUpload st f t fid =
        (.ok fid, { st with manifests := aset st.manifests fid ⟨f, t, []⟩ })) := by
  constructor
  · intro h
    unfold initUpload
    rw [if_pos h]
  · intro h1 h2
    unfold initUpload
    rw [if_neg (by simp [h1, h2])]

/-- C7 witness: the amended theorem applied at concrete inputs. -/
theorem c7_initUpload_validation_witness :
    initUpload emptyState "" 5 "s1" =
      (.error "fileName and totalChunks required", emptyState) ∧
    initUpload emptyState "a.txt" 5 "s1" =
      (.ok "s1", { emptyState with manifests := aset [] "s1" ⟨"a.txt", 5, []⟩ }) :=
  ⟨(c7_initUpload_validation emptyState "" 5 "s1").1 (Or.inl rfl),
   (c7_initUpload_validation emptyState "a.txt" 5 "s1").2 (by decide) (by decide)⟩

/-! ## Claim C6: chunk registration validation -/

/-- C6 (counterexample): registering index 4 against a session with
`totalChunks = 3` succeeds (no `InvalidChunkIndex`), and registering an
empty chunk payload succeeds as well (no `InvalidRequest`): the handler
validates neither the index range nor the payload. -/
theorem c6_counterexample_no_range_or_payload_check :
    (uploadChunk (initUpload emptyState "b.txt" 3 "s9").2
        (some "s9") (some 4) (some (s2c "Z"))).1 = .ok [4] ∧
    (uploadChunk (initUpload emptyState "b.txt" 3 "s9").2
        (some "s9") (some 1) (some [])).1 = .ok [1] := by decide

/-- C6 (amended): `/upload/chunk` fails when `uploadId` or `chunkIndex` is
missing/empty, when the manifest does not exist, or when the chunk file
part is absent — each failure leaving the state unchanged; it performs no
index-range check and no empty-payload check, and every request passing the
three existence checks mutates the chunk store and manifest. -/
theorem c6_uploadChunk_validation (st : ServerState) :
    (∀ ci cf, uploadChunk st none ci cf =
      (.error "uploadId and chunkIndex required", st)) ∧
    (∀ uid cf, uploadChunk st uid none cf =
      (.error "uploadId and chunkIndex required", st)) ∧
    (∀ ci cf, uploadChunk st (some "") ci cf =
      (.error "uploadId and chunkIndex required", st)) ∧
    (∀ uid i cf, uid ≠ "" → aget st.manifests uid = none →
      uploadChunk st (some uid) (some i) cf =
        (.error "Invalid or missing manifest file", st)) ∧
    (∀ uid i m, uid ≠ "" → aget st.manifests uid = some m →
      uploadChunk st (some uid) (some i) none =
        (.error "Chunk file missing", st)) ∧
    (∀ uid i m bs, uid ≠ "" → aget st.manifests uid = some m →
      uploadChunk st (some uid) (some i) (some bs) =
        (.ok (pushIdx m i).uploadedChunks,
         { st with
            chunks := aset st.chunks (uid, i) bs,
            manifests := aset st.manifests uid (pushIdx m i) })) := by
  refine ⟨fun ci cf => ?_, fun uid cf => ?_, fun ci cf => ?_,
    fun uid i cf h hm => ?_, fun uid i m h hm => ?_, fun uid i m bs h hm => ?_⟩
  · cases ci <;> rfl
  · cases uid <;> rfl
  · cases ci <;> simp [uploadChunk]
  · cases cf <;> simp [uploadChunk, h, hm]
  · simp [uploadChunk, h, hm]
  · exact uploadChunk_ok i bs h hm

/-- C6 witness: the amended theorem applied at concrete inputs. -/
theorem c6_uploadChunk_validation_witness :
    uploadChunk emptyState none (some 1) (some (s2c "Z")) =
      (.error "uploadId and chunkIndex required", emptyState) ∧
    uploadChunk emptyState (some "s9") (some 1) (some (s2c "Z")) =
      (.error "Invalid or missing manifest file", emptyState) :=
  ⟨(c6_uploadChunk_validation emptyState).1 (some 1) (some (s2c "Z")),
   (c6_uploadChunk_validation emptyState).2.2.2.1 "s9" 1 (some (s2c "Z"))
     (by decide) (by decide)⟩

/-! ## Path lemmas -/

theorem splitSegs_no_slash {l : List Char} (h : '/' ∉ l) : splitSegs l = [l] := by
  induction l with
  | nil => rfl
  | cons c cs ih =>
    have hc : c ≠ '/' := fun hc => h (hc ▸ List.mem_cons_self c cs)
    have hcs : '/' ∉ cs := fun hm => h (List.mem_cons_of_mem c hm)
    rw [splitSegs, if_neg hc, ih hcs]

theorem normStep_plain (stack : FsPath) {s : Seg} (h : plainSeg s) :
    normStep stack s = stack ++ [s] := by
  rcases h with ⟨h1, h2, h3⟩
  rw [normStep, if_neg (by simp [h1, h2]), if_neg h3]

theorem foldl_normStep_plain {l : List Seg} (h : ∀ s ∈ l, plainSeg s) :
    ∀ acc : FsPath, l.foldl normStep acc = acc ++ l := by
  induction l with
  | nil => intro acc; simp
  | cons s rest ih =>
    intro acc
    have hs : plainSeg s := h s (List.mem_cons_self s rest)
    have hrest : ∀ x ∈ rest, plainSeg x := fun x hx => h x (List.mem_cons_of_mem s hx)
    rw [List.foldl_cons, normStep_plain acc hs, ih hrest, List.append_assoc]
    rfl

theorem normalize_plain {l : List Seg} (h : ∀ s ∈ l, plainSeg s) :
    normalize l = l := by
  simpa using foldl_normStep_plain h []

theorem plainSeg_of_mem_dash {s : Seg} (h : '-' ∈ s) : plainSeg s := by
  refine ⟨?_, ?_, ?_⟩ <;> intro he <;> rw [he] at h <;> simp at h

/-- The four possible classifier outputs. -/
theorem categoryForExt_cases (e : List Char) :
    categoryForExt e = "images" ∨ categoryForExt e = "videos" ∨
    categoryForExt e = "docs" ∨ categoryForExt e = "others" := by
  unfold categoryForExt
  by_cases h1 : e.map Char.toLower ∈ imageExts
  · simp [h1]
  · by_cases h2 : e.map Char.toLower ∈ videoExts
    · simp [h1, h2]
    · by_cases h3 : e.map Char.toLower ∈ docExts
      · simp [h1, h2, h3]
      · simp [h1, h2, h3]

theorem categoryForExt_seg (e : List Char) :
    splitSegs (s2c (categoryForExt e)) = [s2c (categoryForExt e)] ∧
    plainSeg (s2c (categoryForExt e)) := by
  rcases categoryForExt_cases e with h | h | h | h <;> rw [h] <;> exact ⟨by decide, by decide⟩

/-! ## Equation lemma for the success path of the completion handler -/

theorem completeUpload_ok {base : FsPath} {st : ServerState} {uid : String}
    {m : Manifest} (ts : String) (hid : uid ≠ "")
    (hm : aget st.manifests uid = some m)
    (hlen : (m.uploadedChunks.length : Int) = m.totalChunks)
    (hall : (chunkIdxs m.totalChunks).find?
      (fun i => (aget st.chunks (uid, i)).isNone) = none) :
    completeUpload base st (some uid) ts =
      (.ok ("/uploads/" ++ categoryForExt (extnameChars (s2c m.fileName)) ++
              "/" ++ (ts ++ "-" ++ m.fileName)),
       { st with
          files := aset st.files
            (joinUnder base [s2c "uploads",
              s2c (categoryForExt (extnameChars (s2c m.fileName))),
              s2c (ts ++ "-" ++ m.fileName)]) [],
          manifests := adel st.manifests uid },
       some ⟨uid, m.totalChunks,
         joinUnder base [s2c "uploads",
           s2c (categoryForExt (extnameChars (s2c m.fileName))),
           s2c (ts ++ "-" ++ m.fileName)]⟩) := by
  simp [completeUpload, hid, hm, hlen, hall]

/-! ## Claim C2: manifest lifetime versus assembly -/

/-- C2: evaluating the code at a completed one-chunk session (fileName
"a.txt", chunk 1 = "A") shows `/upload/complete` unlinks the session
manifest in the same synchronous step that merely starts the background
assembly: in the state the success response is sent from, the manifest is
already gone while the destination file still holds no bytes, and only
running the deferred assembly job afterwards produces the assembled
content.  The code thus discards the manifest before the assembled file is
durably placed (and it places the file by streaming directly into the
final destination, with no rename), contradicting the claimed ordering. -/
theorem c2_manifest_deleted_before_assembly :
    (completeUpload [s2c "app"]
        (uploadChunk (initUpload emptyState "a.txt" 1 "s1").2
          (some "s1") (some 1) (some (s2c "A"))).2
        (some "s1") "777").1 = .ok "/uploads/docs/777-a.txt" ∧
    aget (completeUpload [s2c "app"]
        (uploadChunk (initUpload emptyState "a.txt" 1 "s1").2
          (some "s1") (some 1) (some (s2c "A"))).2
        (some "s1") "777").2.1.manifests "s1" = none ∧
    (completeUpload [s2c "app"]
        (uploadChunk (initUpload emptyState "a.txt" 1 "s1").2
          (some "s1") (some 1) (some (s2c "A"))).2
        (some "s1") "777").2.2 =
      some ⟨"s1", 1, [s2c "app", s2c "uploads", s2c "docs", s2c "777-a.txt"]⟩ ∧
    aget (completeUpload [s2c "app"]
        (uploadChunk (initUpload emptyState "a.txt" 1 "s1").2
          (some "s1") (some 1) (some (s2c "A"))).2
        (some "s1") "777").2.1.files
      [s2c "app", s2c "uploads", s2c "docs", s2c "777-a.txt"] = some [] ∧
    aget (runAssembly (completeUpload [s2c "app"]
        (uploadChunk (initUpload emptyState "a.txt" 1 "s1").2
          (some "s1") (some 1) (some (s2c "A"))).2
        (some "s1") "777").2.1
        ⟨"s1", 1, [s2c "app", s2c "uploads", s2c "docs", s2c "777-a.txt"]⟩).files
      [s2c "app", s2c "uploads", s2c "docs", s2c "777-a.txt"] = some (s2c "A") := by
  decide

/-! ## Claim C8: fileName interpolation into the storage path -/

/-- C8 (counterexample): completing a session whose client-supplied
fileName is "x/../../../pwn" opens the destination write stream at
`/app/pwn` — outside the category directory and outside the uploads tree —
because the timestamp-prefixed fileName is joined into the path with no
sanitization and its `..` segments are resolved by `path.join`. -/
theorem c8_counterexample_path_traversal :
    (completeUpload [s2c "app"]
        (uploadChunk (initUpload emptyState "x/../../../pwn" 1 "s1").2
          (some "s1") (some 1) (some (s2c "A"))).2
        (some "s1") "777").2.2 =
      some ⟨"s1", 1, [s2c "app", s2c "pwn"]⟩ ∧
    inDir [s2c "app", s2c "uploads", s2c "others"] [s2c "app", s2c "pwn"] = false ∧
    inDir [s2c "app", s2c "uploads"] [s2c "app", s2c "pwn"] = false := by
  decide

/-- C8 (amended): the client-supplied fileName is interpolated — after a
timestamp-and-dash prefix — directly into the final storage path with no
sanitization step.  When the fileName contains no `/` separator the stored
file does land inside the chosen category directory (the timestamped name
is a single plain segment), but fileNames containing separators and `..`
segments resolve outside it, as the counterexample shows. -/
theorem c8_final_path_containment (base : FsPath) (st : ServerState)
    (uid : String) (m : Manifest) (ts : String) (hid : uid ≠ "")
    (hm : aget st.manifests uid = some m)
    (hlen : (m.uploadedChunks.length : Int) = m.totalChunks)
    (hall : (chunkIdxs m.totalChunks).find?
      (fun i => (aget st.chunks (uid, i)).isNone) = none)
    (hbase : ∀ s ∈ base, plainSeg s)
    (hts : '/' ∉ ts.data) (hfn : '/' ∉ m.fileName.data) :
    (completeUpload base st (some uid) ts).2.2 =
      some ⟨uid, m.totalChunks,
        base ++ [s2c "uploads",
          s2c (categoryForExt (extnameChars (s2c m.fileName))),
          s2c (ts ++ "-" ++ m.fileName)]⟩ := by
  have hdata : s2c (ts ++ "-" ++ m.fileName) = ts.data ++ '-' :: m.fileName.data := by
    simp [s2c, String.data_append]
  have hslash : '/' ∉ s2c (ts ++ "-" ++ m.fileName) := by
    rw [hdata]
    intro hmem
    rcases List.mem_append.mp hmem with h | h
    · exact hts h
    · rcases List.mem_cons.mp h with h | h
      · exact absurd h (by decide)
      · exact hfn h
  have hdash : '-' ∈ s2c (ts ++ "-" ++ m.fileName) := by
    rw [hdata]
    exact List.mem_append_right _ (List.mem_cons_self _ _)
  have hsplitF : splitSegs (s2c (ts ++ "-" ++ m.fileName)) =
      [s2c (ts ++ "-" ++ m.fileName)] := splitSegs_no_slash hslash
  have hsplitU : splitSegs (s2c "uploads") = [s2c "uploads"] := by decide
  obtain ⟨hsplitC, hplainC⟩ := categoryForExt_seg (extnameChars (s2c m.fileName))
  rw [completeUpload_ok ts hid hm hlen hall]
  have hjoin : joinUnder base [s2c "uploads",
      s2c (categoryForExt (extnameChars (s2c m.fileName))),
      s2c (ts ++ "-" ++ m.fileName)] =
      base ++ [s2c "uploads",
        s2c (categoryForExt (extnameChars (s2c m.fileName))),
        s2c (ts ++ "-" ++ m.fileName)] := by
    rw [joinUnder]
    rw [List.map_cons, List.map_cons, List.map_cons, List.map_nil]
    rw [hsplitU, hsplitC, hsplitF]
    rw [normalize_plain]
    · simp
    · intro s hs
      have hs' : s ∈ base ∨ s = s2c "uploads" ∨
          s = s2c (categoryForExt (extnameChars (s2c m.fileName))) ∨
          s = s2c (ts ++ "-" ++ m.fileName) := by
        simpa using hs
      rcases hs' with h | h | h | h
      · exact hbase s h
      · rw [h]; exact (by decide : plainSeg (s2c "uploads"))
      · rw [h]; exact hplainC
      · rw [h]; exact plainSeg_of_mem_dash hdash
  rw [hjoin]

/-- C8 witness: the amended containment theorem applied at a concrete
slash-free fileName. -/
theorem c8_final_path_containment_witness :
    (completeUpload [s2c "app"]
        (uploadChunk (initUpload emptyState "a.txt" 1 "s1").2
          (some "s1") (some 1) (some (s2c "A"))).2
        (some "s1") "777").2.2 =
      some ⟨"s1", 1, [s2c "app", s2c "uploads", s2c "docs", s2c "777-a.txt"]⟩ := by
  have h := c8_final_path_containment [s2c "app"]
    (uploadChunk (initUpload emptyState "a.txt" 1 "s1").2
      (some "s1") (some 1) (some (s2c "A"))).2
    "s1" ⟨"a.txt", 1, [1]⟩ "777" (by decide) (by decide) (by decide)
    (by decide) (by decide) (by decide) (by decide)
  simpa using h

/-! ## Claim C5: uploadedChunks containment counterexample -/

/-- C5 (counterexample): after registering index 99 against a session with
`totalChunks = 2`, the manifest records `uploadedChunks = [99]` although
`99 > totalChunks`: the invariant `uploadedChunks ⊆ \x7b1..totalChunks\x7d`
does not hold because the handler never range-checks the index. -/
theorem c5_counterexample_out_of_range_index :
    aget (uploadChunk (initUpload emptyState "a.txt" 2 "s1").2
        (some "s1") (some 99) (some (s2c "A"))).2.manifests "s1" =
      some ⟨"a.txt", 2, [99]⟩ ∧
    ¬ ((99 : Int) ≤ 2) := by decide

/-! ## State-projection lemmas for the operations -/

theorem initUpload_manifests (st : ServerState) (f : String) (t : Int)
    (fid : String) :
    (initUpload st f t fid).2.manifests = st.manifests ∨
    (initUpload st f t fid).2.manifests = aset st.manifests fid ⟨f, t, []⟩ := by
  unfold initUpload
  split
  · exact Or.inl rfl
  · exact Or.inr rfl

theorem uploadChunk_manifests (st : ServerState) (u : Option String)
    (c : Option Int) (f : Option Bytes) :
    (uploadChunk st u c f).2.manifests = st.manifests ∨
    ∃ uid ci mm, u = some uid ∧ c = some ci ∧ aget st.manifests uid = some mm ∧
      (uploadChunk st u c f).2.manifests = aset st.manifests uid (pushIdx mm ci) := by
  rcases u with _ | uid
  · exact Or.inl rfl
  rcases c with _ | ci
  · exact Or.inl rfl
  by_cases hid : uid = ""
  · left; simp [uploadChunk, hid]
  rcases hmm : aget st.manifests uid with _ | mm
  · left; simp [uploadChunk, hid, hmm]
  rcases f with _ | bs
  · left; simp [uploadChunk, hid, hmm]
  · exact Or.inr ⟨uid, ci, mm, rfl, rfl, hmm, by simp [uploadChunk, hid, hmm]⟩

theorem completeUpload_manifests (base : FsPath) (st : ServerState)
    (u : Option String) (ts : String) :
    ((completeUpload base st u ts).2.1).manifests = st.manifests ∨
    ∃ uid, u = some uid ∧
      ((completeUpload base st u ts).2.1).manifests = adel st.manifests uid := by
  rcases u with _ | uid
  · exact Or.inl rfl
  by_cases hid : uid = ""
  · left; simp [completeUpload, hid]
  rcases hmm : aget st.manifests uid with _ | mm
  · left; simp [completeUpload, hid, hmm]
  by_cases hlen : (mm.uploadedChunks.length : Int) = mm.totalChunks
  · rcases hf : (chunkIdxs mm.totalChunks).find?
        (fun i => (aget st.chunks (uid, i)).isNone) with _ | i
    · exact Or.inr ⟨uid, rfl, by simp [completeUpload, hid, hmm, hlen, hf]⟩
    · left; simp [completeUpload, hid, hmm, hlen, hf]
  · left; simp [completeUpload, hid, hmm, hlen]

theorem assembleStep_manifests (uid : String) (d : FsPath) (st : ServerState)
    (i : Int) : (assembleStep uid d st i).manifests = st.manifests := rfl

theorem foldl_assembleStep_manifests (uid : String) (d : FsPath) :
    ∀ (l : List Int) (st : ServerState),
      (l.foldl (assembleStep uid d) st).manifests = st.manifests := by
  intro l
  induction l with
  | nil => intro st; rfl
  | cons a rest ih =>
    intro st
    rw [List.foldl_cons, ih, assembleStep_manifests]

theorem runAssembly_manifests (st : ServerState) (j : AssemblyJob) :
    (runAssembly st j).manifests = st.manifests :=
  foldl_assembleStep_manifests j.uploadId j.finalDest (chunkIdxs j.totalChunks) st

/-! ## Claim C5 (amended): duplicate-freedom and monotone growth -/

/-- C5 (amended): every operation of the server preserves duplicate-freedom
of a session's `uploadedChunks` and only ever grows it while the session
exists (for `/upload/init` under the freshness of the generated id).  The
range-containment part of the original claim is false — see the
counterexample theorem — because the chunk handler never checks the index
against `totalChunks`. -/
theorem c5_uploadedChunks_nodup_monotone (base : FsPath) (st : ServerState)
    (op : Op) (id : String) (m m' : Manifest)
    (hfresh : opFresh st op)
    (hm : aget st.manifests id = some m)
    (hm' : aget (applyOp base st op).manifests id = some m') :
    m.uploadedChunks ⊆ m'.uploadedChunks ∧
    (m.uploadedChunks.Nodup → m'.uploadedChunks.Nodup) := by
  cases op with
  | init f t fid =>
    rcases initUpload_manifests st f t fid with h | h
    · rw [applyOp, h, hm] at hm'
      cases hm'
      exact ⟨fun x hx => hx, fun h => h⟩
    · have hfid : id ≠ fid := by
        intro he
        rw [he] at hm
        rw [hfresh] at hm
        cases hm
      rw [applyOp, h, aget_aset_ne _ _ _ _ hfid, hm] at hm'
      cases hm'
      exact ⟨fun x hx => hx, fun h => h⟩
  | chunk u c f =>
    rcases uploadChunk_manifests st u c f with h | ⟨uid, ci, mm, _, _, hmm, h⟩
    · rw [applyOp, h, hm] at hm'
      cases hm'
      exact ⟨fun x hx => hx, fun h => h⟩
    · by_cases hidu : id = uid
      · subst hidu
        rw [hm] at hmm
        cases hmm
        rw [applyOp, h, aget_aset_self] at hm'
        cases hm'
        exact ⟨pushIdx_sub m ci, pushIdx_nodup ci⟩
      · rw [applyOp, h, aget_aset_ne _ _ _ _ hidu, hm] at hm'
        cases hm'
        exact ⟨fun x hx => hx, fun h => h⟩
  | status u =>
    rw [applyOp, hm] at hm'
    cases hm'
    exact ⟨fun x hx => hx, fun h => h⟩
  | complete u ts =>
    rcases completeUpload_manifests base st u ts with h | ⟨uid, _, h⟩
    · rw [applyOp, h, hm] at hm'
      cases hm'
      exact ⟨fun x hx => hx, fun h => h⟩
    · by_cases hidu : id = uid
      · subst hidu
        rw [applyOp, h, aget_adel_self] at hm'
        cases hm'
      · rw [applyOp, h, aget_adel_ne _ _ _ hidu, hm] at hm'
        cases hm'
        exact ⟨fun x hx => hx, fun h => h⟩
  | assemble j =>
    rw [applyOp, runAssembly_manifests, hm] at hm'
    cases hm'
    exact ⟨fun x hx => hx, fun h => h⟩

/-- C5 witness: the amended invariant applied at a concrete chunk
registration. -/
theorem c5_uploadedChunks_nodup_monotone_witness :
    [(1 : Int)] ⊆ [1, 2] ∧ ([(1 : Int)].Nodup → [(1 : Int), 2].Nodup) := by
  have h := c5_uploadedChunks_nodup_monotone []
    (uploadChunk (initUpload emptyState "a.txt" 2 "s1").2
      (some "s1") (some 1) (some (s2c "A"))).2
    (Op.chunk (some "s1") (some 2) (some (s2c "B")))
    "s1" ⟨"a.txt", 2, [1]⟩ ⟨"a.txt", 2, [1, 2]⟩
    trivial (by decide) (by decide)
  exact h

/-! ## Claim C4: idempotent re-registration -/

/-- C4: re-registering the same `(sessionId, index)` — with identical or
different bytes — succeeds, returns the same uploaded-chunk list as the
first registration, leaves the manifest unchanged relative to the first
registration (so the set size is unchanged and the index appears exactly
once), and the chunk store afterwards holds the bytes of the latest
registration. -/
theorem c4_registerChunk_idempotent (st : ServerState) (uid : String)
    (m : Manifest) (i : Int) (b1 b2 : Bytes) (hid : uid ≠ "")
    (hm : aget st.manifests uid = some m) (hnd : m.uploadedChunks.Nodup) :
    ∃ uc,
      (uploadChunk st (some uid) (some i) (some b1)).1 = .ok uc ∧
      (uploadChunk (uploadChunk st (some uid) (some i) (some b1)).2
        (some uid) (some i) (some b2)).1 = .ok uc ∧
      aget (uploadChunk (uploadChunk st (some uid) (some i) (some b1)).2
        (some uid) (some i) (some b2)).2.manifests uid =
        aget (uploadChunk st (some uid) (some i) (some b1)).2.manifests uid ∧
      uc.count i = 1 ∧
      aget (uploadChunk (uploadChunk st (some uid) (some i) (some b1)).2
        (some uid) (some i) (some b2)).2.chunks (uid, i) = some b2 := by
  have e1 := uploadChunk_ok i b1 hid hm
  have hm1 : aget (uploadChunk st (some uid) (some i) (some b1)).2.manifests uid =
      some (pushIdx m i) := by
    rw [e1]
    exact aget_aset_self _ _ _
  have e2 := uploadChunk_ok i b2 hid hm1
  have hfix : pushIdx (pushIdx m i) i = pushIdx m i :=
    pushIdx_of_mem (pushIdx_mem_self m i)
  refine ⟨(pushIdx m i).uploadedChunks, ?_, ?_, ?_, ?_, ?_⟩
  · rw [e1]
  · rw [e2, hfix]
  · rw [e2, hfix, hm1]
    exact aget_aset_self _ _ _
  · exact List.count_eq_one_of_mem (pushIdx_nodup i hnd) (pushIdx_mem_self m i)
  · rw [e2]
    have : aget (uploadChunk st (some uid) (some i) (some b1)).2.chunks (uid, i) =
        some b1 := by
      rw [e1]
      exact aget_aset_self _ _ _
    exact aget_aset_self _ _ _

/-- C4 witness: idempotent re-registration at a concrete session, index and
two distinct payloads. -/
theorem c4_registerChunk_idempotent_witness :
    ∃ uc,
      (uploadChunk (initUpload emptyState "a.txt" 2 "s1").2
        (some "s1") (some 1) (some (s2c "A"))).1 = .ok uc ∧
      (uploadChunk (uploadChunk (initUpload emptyState "a.txt" 2 "s1").2
        (some "s1") (some 1) (some (s2c "A"))).2
        (some "s1") (some 1) (some (s2c "B"))).1 = .ok uc ∧
      aget (uploadChunk (uploadChunk (initUpload emptyState "a.txt" 2 "s1").2
        (some "s1") (some 1) (some (s2c "A"))).2
        (some "s1") (some 1) (some (s2c "B"))).2.manifests "s1" =
        aget (uploadChunk (initUpload emptyState "a.txt" 2 "s1").2
          (some "s1") (some 1) (some (s2c "A"))).2.manifests "s1" ∧
      uc.count 1 = 1 ∧
      aget (uploadChunk (uploadChunk (initUpload emptyState "a.txt" 2 "s1").2
        (some "s1") (some 1) (some (s2c "A"))).2
        (some "s1") (some 1) (some (s2c "B"))).2.chunks ("s1", 1) =
        some (s2c "B") :=
  c4_registerChunk_idempotent (initUpload emptyState "a.txt" 2 "s1").2
    "s1" ⟨"a.txt", 2, []⟩ 1 (s2c "A") (s2c "B")
    (by decide) (by decide) (by decide)

/-! ## Claim C3: completion validation -/

theorem mem_chunkIdxs {i t : Int} : i ∈ chunkIdxs t ↔ 1 ≤ i ∧ i ≤ t := by
  unfold chunkIdxs
  simp only [List.mem_map, List.mem_range'_1, Int.ofNat_eq_coe]
  constructor
  · rintro ⟨k, ⟨h1, h2⟩, rfl⟩
    omega
  · rintro ⟨h1, h2⟩
    exact ⟨i.toNat, ⟨by omega, by omega⟩, by omega⟩

/-- C3: completion of a session fails with the manifest-missing error when
no manifest exists; fails with the incomplete-upload error exactly when the
manifest exists and the recorded uploaded-chunk count differs from
`totalChunks`; fails with the missing-chunk error naming the first index in
`1..totalChunks` whose chunk blob is physically absent when the counts
match; and proceeds (deleting the manifest, opening the destination file
and scheduling assembly) exactly when every chunk blob exists. -/
theorem c3_completeUpload_validation (base : FsPath) (st : ServerState)
    (uid : String) (ts : String) (hid : uid ≠ "") :
    (aget st.manifests uid = none →
      completeUpload base st (some uid) ts =
        (.error "Invalid uploadId or manifest missing", st, none)) ∧
    (∀ m, aget st.manifests uid = some m →
      (m.uploadedChunks.length : Int) ≠ m.totalChunks →
      completeUpload base st (some uid) ts =
        (.error "Not all chunks uploaded yet", st, none)) ∧
    (∀ m i, aget st.manifests uid = some m →
      (m.uploadedChunks.length : Int) = m.totalChunks →
      (chunkIdxs m.totalChunks).find?
        (fun k => (aget st.chunks (uid, k)).isNone) = some i →
      completeUpload base st (some uid) ts =
        (.error ("Missing chunk file: part" ++ toString i), st, none) ∧
      1 ≤ i ∧ i ≤ m.totalChunks ∧ aget st.chunks (uid, i) = none) ∧
    (∀ m, aget st.manifests uid = some m →
      (m.uploadedChunks.length : Int) = m.totalChunks →
      (∀ i, 1 ≤ i → i ≤ m.totalChunks → aget st.chunks (uid, i) ≠ none) →
      ∃ s j, completeUpload base st (some uid) ts =
        (.ok s,
         { st with
            files := aset st.files j.finalDest [],
            manifests := adel st.manifests uid },
         some j)) ∧
    (∀ m s st' j, aget st.manifests uid = some m →
      completeUpload base st (some uid) ts = (.ok s, st', j) →
      ∀ i, 1 ≤ i → i ≤ m.totalChunks → aget st.chunks (uid, i) ≠ none) := by
  refine ⟨?_, ?_, ?_, ?_, ?_⟩
  · intro hnone
    simp [completeUpload, hid, hnone]
  · intro m hm hlen
    simp [completeUpload, hid, hm, hlen]
  · intro m i hm hlen hfind
    refine ⟨by simp [completeUpload, hid, hm, hlen, hfind], ?_, ?_, ?_⟩
    · exact (mem_chunkIdxs.mp (List.mem_of_find?_eq_some hfind)).1
    · exact (mem_chunkIdxs.mp (List.mem_of_find?_eq_some hfind)).2
    · have := List.find?_some hfind
      simpa [Option.isNone_iff_eq_none] using this
  · intro m hm hlen hall
    have hfind : (chunkIdxs m.totalChunks).find?
        (fun k => (aget st.chunks (uid, k)).isNone) = none := by
      rw [List.find?_eq_none]
      intro x hx
      rcases mem_chunkIdxs.mp hx with ⟨h1, h2⟩
      simpa [Option.isNone_iff_eq_none] using hall x h1 h2
    refine ⟨"/uploads/" ++ categoryForExt (extnameChars (s2c m.fileName)) ++
        "/" ++ (ts ++ "-" ++ m.fileName),
      ⟨uid, m.totalChunks,
        joinUnder base [s2c "uploads",
          s2c (categoryForExt (extnameChars (s2c m.fileName))),
          s2c (ts ++ "-" ++ m.fileName)]⟩, ?_⟩
    exact completeUpload_ok ts hid hm hlen hfind
  · intro m s st' j hm hok i h1 h2 hcontra
    have hfind : (chunkIdxs m.totalChunks).find?
        (fun k => (aget st.chunks (uid, k)).isNone) ≠ none := by
      intro hn
      have := (List.find?_eq_none.mp hn) i (mem_chunkIdxs.mpr ⟨h1, h2⟩)
      simp [hcontra] at this
    by_cases hlen : (m.uploadedChunks.length : Int) = m.totalChunks
    · rcases hf : (chunkIdxs m.totalChunks).find?
          (fun k => (aget st.chunks (uid, k)).isNone) with _ | k
      · exact hfind hf
      · rw [show completeUpload base st (some uid) ts =
            (.error ("Missing chunk file: part" ++ toString k), st, none) by
            simp [completeUpload, hid, hm, hlen, hf]] at hok
        cases hok
    · rw [show completeUpload base st (some uid) ts =
          (.error "Not all chunks uploaded yet", st, none) by
          simp [completeUpload, hid, hm, hlen]] at hok
      cases hok

/-- C3 witness: the validation characterization applied at concrete states:
a missing manifest, an incomplete session, a session whose chunk blob was
externally deleted, and a fully present session. -/
theorem c3_completeUpload_validation_witness :
    completeUpload [] emptyState (some "nope") "7" =
      (.error "Invalid uploadId or manifest missing", emptyState, none) ∧
    completeUpload [] ⟨[("s1", ⟨"a.txt", 2, [1]⟩)], [(("s1", 1), s2c "A")], []⟩
        (some "s1") "7" =
      (.error "Not all chunks uploaded yet",
       ⟨[("s1", ⟨"a.txt", 2, [1]⟩)], [(("s1", 1), s2c "A")], []⟩, none) ∧
    completeUpload [] ⟨[("s1", ⟨"a.txt", 2, [1, 2]⟩)], [(("s1", 1), s2c "A")], []⟩
        (some "s1") "7" =
      (.error "Missing chunk file: part2",
       ⟨[("s1", ⟨"a.txt", 2, [1, 2]⟩)], [(("s1", 1), s2c "A")], []⟩, none) := by
  have h := c3_completeUpload_validation [] emptyState "nope" "7" (by decide)
  have h2 := c3_completeUpload_validation []
    ⟨[("s1", ⟨"a.txt", 2, [1]⟩)], [(("s1", 1), s2c "A")], []⟩ "s1" "7" (by decide)
  have h3 := c3_completeUpload_validation []
    ⟨[("s1", ⟨"a.txt", 2, [1, 2]⟩)], [(("s1", 1), s2c "A")], []⟩ "s1" "7" (by decide)
  refine ⟨h.1 (by decide), h2.2.1 ⟨"a.txt", 2, [1]⟩ (by decide) (by decide), ?_⟩
  exact (h3.2.2.1 ⟨"a.txt", 2, [1, 2]⟩ 2 (by decide) (by decide) (by decide)).1

/-! ## Claim C9: concurrent registrations -/

theorem twoRegs_status (st : ServerState) (uid : String) (m : Manifest)
    (a b : Int) (ba bb : Bytes) (hid : uid ≠ "")
    (hm : aget st.manifests uid = some m) :
    ∃ uc1 uc2,
      (uploadChunk st (some uid) (some a) (some ba)).1 = .ok uc1 ∧
      (uploadChunk (uploadChunk st (some uid) (some a) (some ba)).2
        (some uid) (some b) (some bb)).1 = .ok uc2 ∧
      getStatus (uploadChunk (uploadChunk st (some uid) (some a) (some ba)).2
        (some uid) (some b) (some bb)).2 (some uid) = .ok uc2 ∧
      a ∈ uc2 ∧ b ∈ uc2 := by
  have e1 := uploadChunk_ok a ba hid hm
  have hm1 : aget (uploadChunk st (some uid) (some a) (some ba)).2.manifests uid =
      some (pushIdx m a) := by
    rw [e1]
    exact aget_aset_self _ _ _
  have e2 := uploadChunk_ok b bb hid hm1
  refine ⟨(pushIdx m a).uploadedChunks, (pushIdx (pushIdx m a) b).uploadedChunks,
    ?_, ?_, ?_, ?_, ?_⟩
  · rw [e1]
  · rw [e2]
  · have hm2 : aget (uploadChunk (uploadChunk st (some uid) (some a) (some ba)).2
        (some uid) (some b) (some bb)).2.manifests uid =
        some (pushIdx (pushIdx m a) b) := by
      rw [e2]
      exact aget_aset_self _ _ _
    simp [getStatus, hid, hm2]
  · exact pushIdx_sub (pushIdx m a) b (pushIdx_mem_self m a)
  · exact pushIdx_mem_self (pushIdx m a) b

/-- C9: with each chunk-handler execution modelled as one atomic step —
faithful to the source, where the whole manifest read-modify-write is a
block of synchronous `fs` calls (`readFileSync`, `renameSync`,
`writeFileSync`) on Node's single-threaded event loop, so two in-flight
requests' critical sections cannot interleave — two simultaneous
registrations of indices `i` and `j` for the same session both succeed
under either serialization order, and `GetStatus` afterwards reports a set
containing both indices: no manifest update is lost. -/
theorem c9_concurrent_registration_no_lost_update (st : ServerState)
    (uid : String) (m : Manifest) (i j : Int) (bi bj : Bytes)
    (hid : uid ≠ "") (hm : aget st.manifests uid = some m)
    (first second : Int × Bytes)
    (horder : (first = (i, bi) ∧ second = (j, bj)) ∨
              (first = (j, bj) ∧ second = (i, bi))) :
    ∃ uc1 uc2,
      (uploadChunk st (some uid) (some first.1) (some first.2)).1 = .ok uc1 ∧
      (uploadChunk (uploadChunk st (some uid) (some first.1) (some first.2)).2
        (some uid) (some second.1) (some second.2)).1 = .ok uc2 ∧
      getStatus (uploadChunk
        (uploadChunk st (some uid) (some first.1) (some first.2)).2
        (some uid) (some second.1) (some second.2)).2 (some uid) = .ok uc2 ∧
      i ∈ uc2 ∧ j ∈ uc2 := by
  rcases horder with ⟨h1, h2⟩ | ⟨h1, h2⟩ <;> subst h1 <;> subst h2
  · exact twoRegs_status st uid m i j bi bj hid hm
  · obtain ⟨uc1, uc2, g1, g2, g3, g4, g5⟩ :=
      twoRegs_status st uid m j i bj bi hid hm
    exact ⟨uc1, uc2, g1, g2, g3, g5, g4⟩

/-- C9 witness: both serialization orders of two concurrent registrations
at a concrete session, checked for indices 1 and 2. -/
theorem c9_concurrent_registration_no_lost_update_witness :
    ∃ uc1 uc2,
      (uploadChunk (initUpload emptyState "a.txt" 2 "s1").2
        (some "s1") (some 2) (some (s2c "B"))).1 = .ok uc1 ∧
      (uploadChunk (uploadChunk (initUpload emptyState "a.txt" 2 "s1").2
        (some "s1") (some 2) (some (s2c "B"))).2
        (some "s1") (some 1) (some (s2c "A"))).1 = .ok uc2 ∧
      getStatus (uploadChunk
        (uploadChunk (initUpload emptyState "a.txt" 2 "s1").2
        (some "s1") (some 2) (some (s2c "B"))).2
        (some "s1") (some 1) (some (s2c "A"))).2 (some "s1") = .ok uc2 ∧
      (1 : Int) ∈ uc2 ∧ (2 : Int) ∈ uc2 :=
  c9_concurrent_registration_no_lost_update
    (initUpload emptyState "a.txt" 2 "s1").2 "s1" ⟨"a.txt", 2, []⟩
    1 2 (s2c "A") (s2c "B") (by decide) (by decide)
    (2, s2c "B") (1, s2c "A") (Or.inr ⟨rfl, rfl⟩)

/-! ## Claim C10: the download endpoint -/

/-- C10: the `/download` handler joins the client-supplied `path` query
parameter onto the server's base directory with no containment or
sanitization check: for every supplied nonempty path the outcome is
determined solely by whether the resolved file exists (404 when absent,
serve when present), and a concrete traversal input `"../secret"` resolves
outside the base directory — and hence outside the uploads tree — yet is
served when such a file exists. -/
theorem c10_download_no_containment_check (base : FsPath)
    (files : List FsPath) (q : String) (hq : q ≠ "") :
    (download base files (some q) = .notFound ↔
      joinUnder base [s2c q] ∉ files) ∧
    (joinUnder base [s2c q] ∈ files →
      download base files (some q) = .serve (joinUnder base [s2c q])) ∧
    (download [s2c "app"] [[s2c "secret"]] (some "../secret") =
        .serve [s2c "secret"] ∧
      inDir [s2c "app", s2c "uploads"] [s2c "secret"] = false ∧
      inDir [s2c "app"] [s2c "secret"] = false) := by
  refine ⟨?_, ?_, by decide⟩
  · by_cases hmem : joinUnder base [s2c q] ∈ files <;> simp [download, hq, hmem]
  · intro hmem
    simp [download, hq, hmem]

/-- C10 witness: the download characterization applied at a concrete base,
file set and query. -/
theorem c10_download_no_containment_check_witness :
    (download [s2c "app"] [] (some "x") = .notFound ↔
      joinUnder [s2c "app"] [s2c "x"] ∉ ([] : List FsPath)) ∧
    download [s2c "app"] [[s2c "secret"]] (some "../secret") =
      .serve [s2c "secret"] :=
  ⟨(c10_download_no_containment_check [s2c "app"] [] "x" (by decide)).1,
   ((c10_download_no_containment_check [s2c "app"] [] "x" (by decide)).2.2).1⟩

/-! ## Claim C1: ordered assembly, independent of arrival order -/

theorem applyRegs_nil (st : ServerState) (uid : String) :
    applyRegs st uid [] = st := rfl

theorem applyRegs_cons (st : ServerState) (uid : String) (r : Int × Bytes)
    (rest : List (Int × Bytes)) :
    applyRegs st uid (r :: rest) =
      applyRegs (uploadChunk st (some uid) (some r.1) (some r.2)).2 uid rest := rfl

theorem pushIdx_not_mem_eq {m : Manifest} {i : Int} (h : i ∉ m.uploadedChunks) :
    pushIdx m i = ⟨m.fileName, m.totalChunks, m.uploadedChunks ++ [i]⟩ := by
  unfold pushIdx
  rw [if_neg h]

theorem uploadChunk_chunks_other (st : ServerState) (u : String) (ci : Int)
    (f : Option Bytes) (uid : String) (i : Int) (hne : i ≠ ci) :
    aget (uploadChunk st (some u) (some ci) f).2.chunks (uid, i) =
      aget st.chunks (uid, i) := by
  by_cases hid : u = ""
  · simp [uploadChunk, hid]
  rcases hmm : aget st.manifests u with _ | mm
  · simp [uploadChunk, hid, hmm]
  rcases f with _ | bs
  · simp [uploadChunk, hid, hmm]
  · simp only [uploadChunk, hid, hmm, if_neg]
    exact aget_aset_ne _ _ _ _ (fun h => hne (congrArg Prod.snd h))

theorem applyRegs_chunks_not_mem (uid : String) (i : Int) :
    ∀ (regs : List (Int × Bytes)) (st : ServerState),
      i ∉ regs.map Prod.fst →
      aget (applyRegs st uid regs).chunks (uid, i) = aget st.chunks (uid, i) := by
  intro regs
  induction regs with
  | nil => intro st _; rfl
  | cons r rest ih =>
    intro st hni
    obtain ⟨h1, h2⟩ : i ≠ r.1 ∧ i ∉ rest.map Prod.fst := by simpa using hni
    rw [applyRegs_cons, ih _ h2,
      uploadChunk_chunks_other st uid r.1 (some r.2) uid i h1]

theorem applyRegs_chunks_mem (uid : String) (hid : uid ≠ "") :
    ∀ (regs : List (Int × Bytes)) (st : ServerState) (m : Manifest)
      (i : Int) (bs : Bytes),
      aget st.manifests uid = some m → (i, bs) ∈ regs →
      (regs.map Prod.fst).Nodup →
      aget (applyRegs st uid regs).chunks (uid, i) = some bs := by
  intro regs
  induction regs with
  | nil => intro st m i bs _ h _; cases h
  | cons r rest ih =>
    intro st m i bs hm hmem hnd
    obtain ⟨hr1, hrest⟩ : r.1 ∉ rest.map Prod.fst ∧ (rest.map Prod.fst).Nodup := by
      simpa using hnd
    have e1 := uploadChunk_ok r.1 r.2 hid hm
    rcases List.mem_cons.mp hmem with heq | hmem'
    · have hif : i = r.1 := congrArg Prod.fst heq
      have hbs : bs = r.2 := congrArg Prod.snd heq
      rw [applyRegs_cons,
        applyRegs_chunks_not_mem uid i rest _ (by rw [hif]; exact hr1), e1,
        hif, hbs]
      exact aget_aset_self _ _ _
    · have hm1 : aget (uploadChunk st (some uid) (some r.1)
          (some r.2)).2.manifests uid = some (pushIdx m r.1) := by
        rw [e1]
        exact aget_aset_self _ _ _
      rw [applyRegs_cons]
      exact ih _ (pushIdx m r.1) i bs hm1 hmem' hrest

theorem applyRegs_manifest (uid : String) (hid : uid ≠ "") :
    ∀ (regs : List (Int × Bytes)) (st : ServerState) (m : Manifest),
      aget st.manifests uid = some m →
      (regs.map Prod.fst).Nodup →
      (∀ k ∈ regs.map Prod.fst, k ∉ m.uploadedChunks) →
      aget (applyRegs st uid regs).manifests uid =
        some ⟨m.fileName, m.totalChunks,
          m.uploadedChunks ++ regs.map Prod.fst⟩ := by
  intro regs
  induction regs with
  | nil =>
    intro st m hm _ _
    rw [applyRegs_nil, hm]
    cases m
    simp
  | cons r rest ih =>
    intro st m hm hnd hdisj
    obtain ⟨hr1, hrest⟩ : r.1 ∉ rest.map Prod.fst ∧ (rest.map Prod.fst).Nodup := by
      simpa using hnd
    have hnotm : r.1 ∉ m.uploadedChunks := hdisj r.1 (List.mem_cons_self _ _)
    have e1 := uploadChunk_ok r.1 r.2 hid hm
    have hm1 : aget (uploadChunk st (some uid) (some r.1)
        (some r.2)).2.manifests uid =
        some ⟨m.fileName, m.totalChunks, m.uploadedChunks ++ [r.1]⟩ := by
      rw [e1, ← pushIdx_not_mem_eq hnotm]
      exact aget_aset_self _ _ _
    have hdisj2 : ∀ k ∈ rest.map Prod.fst,
        k ∉ (⟨m.fileName, m.totalChunks,
          m.uploadedChunks ++ [r.1]⟩ : Manifest).uploadedChunks := by
      intro k hk
      simp only [List.mem_append, List.mem_singleton]
      rintro (hin | hkr)
      · exact hdisj k (List.mem_cons_of_mem _ hk) hin
      · rw [hkr] at hk
        exact hr1 hk
    rw [applyRegs_cons, ih _ _ hm1 hrest hdisj2]
    simp

theorem assembly_fold (uid : String) (dest : FsPath) (b : Nat → Bytes) :
    ∀ (n a : Nat) (st : ServerState) (acc : Bytes),
      aget st.files dest = some acc →
      (∀ k, k ∈ List.range' a n → aget st.chunks (uid, (k : Int)) = some (b k)) →
      aget (((List.range' a n).map Int.ofNat).foldl
        (assembleStep uid dest) st).files dest =
        some (acc ++ ((List.range' a n).map b).flatten) := by
  intro n
  induction n with
  | zero =>
    intro a st acc hacc _
    simpa using hacc
  | succ n ih =>
    intro a st acc hacc hch
    rw [List.range'_succ a n 1, List.map_cons, List.foldl_cons, List.map_cons,
      List.flatten_cons]
    have hch_a : aget st.chunks (uid, (a : Int)) = some (b a) :=
      hch a (by rw [List.range'_succ a n 1]; exact List.mem_cons_self _ _)
    have h1 : aget (assembleStep uid dest st (Int.ofNat a)).files dest =
        some (acc ++ b a) := by
      simp [assembleStep, Int.ofNat_eq_coe, hch_a, hacc]
    have h2 : ∀ k, k ∈ List.range' (a + 1) n →
        aget (assembleStep uid dest st (Int.ofNat a)).chunks (uid, (k : Int)) =
          some (b k) := by
      intro k hk
      have hka : k ≠ a := by
        have := List.mem_range'_1.mp hk
        omega
      have hpair : ((uid, (k : Int)) : String × Int) ≠ (uid, Int.ofNat a) := by
        intro h
        have := congrArg Prod.snd h
        simp only [Int.ofNat_eq_coe] at this
        exact hka (by exact_mod_cast this)
      have hmem : k ∈ List.range' a (n + 1) := by
        rw [List.range'_succ a n 1]
        exact List.mem_cons_of_mem _ hk
      calc aget (assembleStep uid dest st (Int.ofNat a)).chunks (uid, (k : Int))
          = aget (adel st.chunks (uid, Int.ofNat a)) (uid, (k : Int)) := rfl
        _ = aget st.chunks (uid, (k : Int)) := aget_adel_ne _ _ _ hpair
        _ = some (b k) := hch k hmem
    have h3 := ih (a + 1) (assembleStep uid dest st (Int.ofNat a)) (acc ++ b a) h1 h2
    rw [h3, List.append_assoc]

theorem runAssembly_content (st : ServerState) (uid : String) (dest : FsPath)
    (n : Nat) (b : Nat → Bytes)
    (hacc : aget st.files dest = some [])
    (hch : ∀ k, k ∈ List.range' 1 n →
      aget st.chunks (uid, (k : Int)) = some (b k)) :
    aget (runAssembly st ⟨uid, (n : Int), dest⟩).files dest =
      some (((List.range' 1 n).map b).flatten) := by
  have h := assembly_fold uid dest b n 1 st [] hacc hch
  unfold runAssembly chunkIdxs
  simp only [Int.toNat_natCast]
  simpa using h

/-- C1: for a fresh session with `totalChunks = n`, registering chunks
`1..n` with payloads `b 1 … b n` in any arrival order (any permutation of
the canonical registration sequence) makes `/upload/complete` succeed and
the subsequent assembly produce a stored file at the job's destination
whose byte content is exactly `b 1 ++ b 2 ++ … ++ b n`: concatenation in
strict ascending index order, independent of registration order. -/
theorem c1_assembly_concatenates_in_index_order (base : FsPath)
    (st : ServerState) (uid : String) (fn : String) (n : Nat)
    (b : Nat → Bytes) (regs : List (Int × Bytes)) (ts : String)
    (hid : uid ≠ "")
    (hm : aget st.manifests uid = some ⟨fn, (n : Int), []⟩)
    (hperm : List.Perm regs
      ((List.range' 1 n).map (fun (k : Nat) => ((k : Int), b k)))) :
    ∃ s j,
      completeUpload base (applyRegs st uid regs) (some uid) ts =
        (.ok s,
         { applyRegs st uid regs with
            files := aset (applyRegs st uid regs).files j.finalDest [],
            manifests := adel (applyRegs st uid regs).manifests uid },
         some j) ∧
      aget (runAssembly
        { applyRegs st uid regs with
            files := aset (applyRegs st uid regs).files j.finalDest [],
            manifests := adel (applyRegs st uid regs).manifests uid } j).files
        j.finalDest = some (((List.range' 1 n).map b).flatten) := by
  have hkeysperm : List.Perm (regs.map Prod.fst)
      (List.map Int.ofNat (List.range' 1 n)) := by
    have h := hperm.map Prod.fst
    rw [List.map_map] at h
    exact h
  have hnd : (regs.map Prod.fst).Nodup :=
    hkeysperm.nodup_iff.mpr
      ((List.nodup_range' 1 n).map (fun x y hh => Int.ofNat.inj hh))
  have hlen : (regs.map Prod.fst).length = n := by
    have h := hkeysperm.length_eq
    simpa using h
  have hman := applyRegs_manifest uid hid regs st ⟨fn, (n : Int), []⟩ hm hnd
    (by intro k _ hk; simp at hk)
  simp only [List.nil_append] at hman
  have hget : ∀ k, k ∈ List.range' 1 n →
      aget (applyRegs st uid regs).chunks (uid, (k : Int)) = some (b k) := by
    intro k hk
    exact applyRegs_chunks_mem uid hid regs st ⟨fn, (n : Int), []⟩ (k : Int)
      (b k) hm (hperm.mem_iff.mpr (List.mem_map.mpr ⟨k, hk, rfl⟩)) hnd
  have hfind : (chunkIdxs ((⟨fn, (n : Int),
        regs.map Prod.fst⟩ : Manifest)).totalChunks).find?
      (fun i => (aget (applyRegs st uid regs).chunks (uid, i)).isNone) =
        none := by
    rw [List.find?_eq_none]
    intro x hx
    rcases mem_chunkIdxs.mp hx with ⟨h1, h2⟩
    have h2' : x ≤ (n : Int) := h2
    have hx' : x.toNat ∈ List.range' 1 n := by
      rw [List.mem_range'_1]
      omega
    have := hget x.toNat hx'
    rw [show ((x.toNat : Nat) : Int) = x by omega] at this
    simp [this]
  have hlenInt : (((⟨fn, (n : Int), regs.map Prod.fst⟩ :
      Manifest)).uploadedChunks.length : Int) =
      ((⟨fn, (n : Int), regs.map Prod.fst⟩ : Manifest)).totalChunks := by
    simp [hlen]
  have hcomplete := @completeUpload_ok base (applyRegs st uid regs) uid
    ⟨fn, (n : Int), regs.map Prod.fst⟩ ts hid hman hlenInt hfind
  refine ⟨"/uploads/" ++ categoryForExt (extnameChars (s2c fn)) ++ "/" ++
      (ts ++ "-" ++ fn),
    ⟨uid, (n : Int), joinUnder base [s2c "uploads",
      s2c (categoryForExt (extnameChars (s2c fn))),
      s2c (ts ++ "-" ++ fn)]⟩, ?_, ?_⟩
  · exact hcomplete
  · apply runAssembly_content
    · exact aget_aset_self _ _ _
    · intro k hk
      exact hget k hk

/-- C1 witness: three chunks "AB", "CD", "EF" registered in arrival order
2, 1, 3 assemble to "ABCDEF". -/
theorem c1_assembly_concatenates_in_index_order_witness :
    ∃ s j,
      completeUpload [s2c "app"]
        (applyRegs (initUpload emptyState "a.txt" 3 "s1").2 "s1"
          [(2, s2c "CD"), (1, s2c "AB"), (3, s2c "EF")]) (some "s1") "777" =
        (.ok s,
         { applyRegs (initUpload emptyState "a.txt" 3 "s1").2 "s1"
              [(2, s2c "CD"), (1, s2c "AB"), (3, s2c "EF")] with
            files := aset (applyRegs (initUpload emptyState "a.txt" 3 "s1").2
              "s1" [(2, s2c "CD"), (1, s2c "AB"), (3, s2c "EF")]).files
              j.finalDest [],
            manifests := adel (applyRegs
              (initUpload emptyState "a.txt" 3 "s1").2 "s1"
              [(2, s2c "CD"), (1, s2c "AB"), (3, s2c "EF")]).manifests "s1" },
         some j) ∧
      aget (runAssembly
        { applyRegs (initUpload emptyState "a.txt" 3 "s1").2 "s1"
              [(2, s2c "CD"), (1, s2c "AB"), (3, s2c "EF")] with
            files := aset (applyRegs (initUpload emptyState "a.txt" 3 "s1").2
              "s1" [(2, s2c "CD"), (1, s2c "AB"), (3, s2c "EF")]).files
              j.finalDest [],
            manifests := adel (applyRegs
              (initUpload emptyState "a.txt" 3 "s1").2 "s1"
              [(2, s2c "CD"), (1, s2c "AB"), (3, s2c "EF")]).manifests "s1" }
        j).files j.finalDest =
        some (((List.range' 1 3).map
          (fun k => if k = 1 then s2c "AB"
            else if k = 2 then s2c "CD"
            else if k = 3 then s2c "EF" else [])).flatten) :=
  c1_assembly_concatenates_in_index_order [s2c "app"]
    (initUpload emptyState "a.txt" 3 "s1").2 "s1" "a.txt" 3
    (fun k => if k = 1 then s2c "AB"
      else if k = 2 then s2c "CD"
      else if k = 3 then s2c "EF" else [])
    [(2, s2c "CD"), (1, s2c "AB"), (3, s2c "EF")] "777"
    (by decide) (by decide) (by decide)

end FileShare
